import Mathlib

/-
Verification development for the sanfoundry_zipper repository.

Part 1 models the LSB image steganography codec described by the
specification.  The codec itself is not present in the repository source
tree (only the spec describes it), so every definition in namespace
`Stego` is modelled from the spec, as indicated by its doc comment.

Part 2 embeds the pure helper functions of src/app.py
(`slug_from_url`, `extract_links_from_index`, `format_choices`);
Python strings are modelled as lists of characters, and external
library calls (urllib's urlparse/unquote/urljoin, BeautifulSoup's
HTML parsing) are abstracted as explicit inputs.
-/

namespace Stego

/-- Modelled from the spec: one pixel of a RasterImage, holding 4 channels
(red, green, blue, alpha) at 8-bit depth.  The codec is missing from the
repository source; the data model follows spec section 3. -/
structure Pixel where
  r : Nat
  g : Nat
  b : Nat
  a : Nat
deriving DecidableEq, Repr

/-- Modelled from the spec: a RasterImage is a rectangular grid of pixels,
width by height, stored here in row-major order as a flat list. -/
structure RasterImage where
  width : Nat
  height : Nat
  pixels : List Pixel
deriving DecidableEq, Repr

/-- Modelled from the spec: the CapacityExceeded error carries both the
available and the needed bit counts. -/
structure CapacityError where
  bits_available : Nat
  needed : Nat
deriving DecidableEq, Repr

/-- Modelled from the spec: capacity model, `bits_available = width * height * 3`
(3 usable channels per pixel, alpha excluded). -/
def capacity (width height : Nat) : Nat :=
  width * height * 3

/-- Modelled from the spec: a frame of `payload_byte_len` bytes is embeddable
iff `32 + 8 * payload_byte_len` is at most the capacity. -/
def fits (width height payload_byte_len : Nat) : Bool :=
  decide (32 + payload_byte_len * 8 ≤ capacity width height)

/-- Big-endian (most-significant bit first) bit expansion of a natural
number to a fixed width, used by the bit framer. -/
def natToBits : Nat → Nat → List Bool
  | 0, _ => []
  | w + 1, n => natToBits w (n / 2) ++ [decide (n % 2 = 1)]

/-- Reads a most-significant-bit-first sequence as an unsigned integer. -/
def bitsToNat (bits : List Bool) : Nat :=
  bits.foldl (fun acc b => 2 * acc + (if b then 1 else 0)) 0

/-- Modelled from the spec: each payload byte contributes its 8 bits,
most-significant bit first, in original byte order. -/
def bytesToBits (payload : List Nat) : List Bool :=
  payload.flatMap (natToBits 8)

/-- Modelled from the spec: bit framer serialization.  Emit the 32-bit
big-endian representation of the payload length, then the payload bytes
MSB-first; no padding, no checksum, no terminator. -/
def serialize (payload : List Nat) : List Bool :=
  natToBits 32 payload.length ++ bytesToBits payload

/-- Groups a bit sequence into bytes, 8 bits per byte, MSB first. -/
def bytesFromBits (bits : List Bool) : List Nat :=
  match bits with
  | [] => []
  | b :: bs => bitsToNat (List.take 8 (b :: bs)) :: bytesFromBits (List.drop 7 bs)
termination_by bits.length
decreasing_by
  simp only [List.length_drop, List.length_cons]
  omega

/-- Modelled from the spec: bit framer deserialization.  Read the first 32
bits as an unsigned big-endian integer N; with fewer than 32 bits, or fewer
than N * 8 further bits, signal insufficient data (`none`); otherwise
consume exactly N bytes worth of bits. -/
def deserialize (bits : List Bool) : Option (List Nat) :=
  if bits.length < 32 then none
  else
    let N := bitsToNat (List.take 32 bits)
    let rest := List.drop 32 bits
    if rest.length < N * 8 then none
    else some (bytesFromBits (List.take (N * 8) rest))

/-- Clears the low bit of a channel value and sets it to the payload bit,
the `(original_value AND NOT 1) OR bit` step of the encoder. -/
def setLSB (v : Nat) (b : Bool) : Nat :=
  2 * (v / 2) + (if b then 1 else 0)

/-- Modelled from the spec: walk the channel iterator (row-major pixel
order, red then green then blue within a pixel) in lockstep with the bit
sequence, writing each pending bit into the channel's low bit; channels
visited after the bit sequence is exhausted are left unchanged, and alpha
is copied through unmodified. -/
def writePixels : List Pixel → List Bool → List Pixel
  | ps, [] => ps
  | [], _ => []
  | p :: ps, b1 :: bs =>
    match bs with
    | [] => Pixel.mk (setLSB p.r b1) p.g p.b p.a :: ps
    | b2 :: bs2 =>
      match bs2 with
      | [] => Pixel.mk (setLSB p.r b1) (setLSB p.g b2) p.b p.a :: ps
      | b3 :: bs3 =>
        Pixel.mk (setLSB p.r b1) (setLSB p.g b2) (setLSB p.b b3) p.a
          :: writePixels ps bs3

/-- Modelled from the spec: the deterministic channel traversal order,
row-major pixel order and red, green, blue channel order within a pixel. -/
def channels (ps : List Pixel) : List Nat :=
  ps.flatMap (fun p => [p.r, p.g, p.b])

/-- Modelled from the spec: the decoder reads each visited channel's low
bit, in the shared traversal order, into an accumulated bit sequence. -/
def readBits (ps : List Pixel) : List Bool :=
  (channels ps).map (fun v => decide (v % 2 = 1))

/-- Modelled from the spec: the encoder.  Validates capacity (reporting
both figures on failure), serializes the payload, and returns a new
RasterImage of identical dimensions with the frame's bits embedded in the
channel low bits. -/
def encode (img : RasterImage) (message : List Nat) : Except CapacityError RasterImage :=
  let bits_available := capacity img.width img.height
  let needed := 32 + message.length * 8
  if bits_available < needed then
    Except.error (CapacityError.mk bits_available needed)
  else
    Except.ok (RasterImage.mk img.width img.height (writePixels img.pixels (serialize message)))

/-- UTF-8 validity of a byte sequence, the check the decoder applies to the
recovered bytes before reporting a message. -/
def validUtf8 : List Nat → Bool
  | [] => true
  | b :: bs =>
    if b < 128 then validUtf8 bs
    else if 194 ≤ b && b ≤ 223 then
      match bs with
      | c1 :: rest => (128 ≤ c1 && c1 ≤ 191) && validUtf8 rest
      | [] => false
    else if b = 224 then
      match bs with
      | c1 :: c2 :: rest =>
        (160 ≤ c1 && c1 ≤ 191) && (128 ≤ c2 && c2 ≤ 191) && validUtf8 rest
      | _ => false
    else if 225 ≤ b && b ≤ 236 then
      match bs with
      | c1 :: c2 :: rest =>
        (128 ≤ c1 && c1 ≤ 191) && (128 ≤ c2 && c2 ≤ 191) && validUtf8 rest
      | _ => false
    else if b = 237 then
      match bs with
      | c1 :: c2 :: rest =>
        (128 ≤ c1 && c1 ≤ 159) && (128 ≤ c2 && c2 ≤ 191) && validUtf8 rest
      | _ => false
    else if 238 ≤ b && b ≤ 239 then
      match bs with
      | c1 :: c2 :: rest =>
        (128 ≤ c1 && c1 ≤ 191) && (128 ≤ c2 && c2 ≤ 191) && validUtf8 rest
      | _ => false
    else if b = 240 then
      match bs with
      | c1 :: c2 :: c3 :: rest =>
        (144 ≤ c1 && c1 ≤ 191) && (128 ≤ c2 && c2 ≤ 191) &&
          (128 ≤ c3 && c3 ≤ 191) && validUtf8 rest
      | _ => false
    else if 241 ≤ b && b ≤ 243 then
      match bs with
      | c1 :: c2 :: c3 :: rest =>
        (128 ≤ c1 && c1 ≤ 191) && (128 ≤ c2 && c2 ≤ 191) &&
          (128 ≤ c3 && c3 ≤ 191) && validUtf8 rest
      | _ => false
    else if b = 244 then
      match bs with
      | c1 :: c2 :: c3 :: rest =>
        (128 ≤ c1 && c1 ≤ 143) && (128 ≤ c2 && c2 ≤ 191) &&
          (128 ≤ c3 && c3 ≤ 191) && validUtf8 rest
      | _ => false
    else false

/-- Modelled from the spec: the decoder.  Extracts the low bits over the
full image, deserializes them, then checks the recovered bytes decode as
UTF-8; insufficient data and undecodable text both surface as the sentinel
`none`, never as an exception. -/
def decode (img : RasterImage) : Option (List Nat) :=
  match deserialize (readBits img.pixels) with
  | none => none
  | some bytes => if validUtf8 bytes then some bytes else none

/-- Pointwise update of channel low bits: applies `setLSB` to the prefix of
the channel list covered by the bit sequence and keeps the rest. -/
def zipSetLSB : List Bool → List Nat → List Nat
  | [], vs => vs
  | _ :: _, [] => []
  | b :: bs, v :: vs => setLSB v b :: zipSetLSB bs vs

/-- Extracts the payload image of a successful encode, or a default. -/
def okOr (x : Except CapacityError RasterImage) (d : RasterImage) : RasterImage :=
  match x with
  | Except.ok v => v
  | Except.error _ => d

/-- A concrete 4 by 4 sample image (capacity 48 bits). -/
def sampleImg : RasterImage :=
  RasterImage.mk 4 4 (List.replicate 16 (Pixel.mk 10 20 30 40))

/-- The sample image with the one-byte message 72 embedded. -/
def sampleEncoded : RasterImage :=
  okOr (encode sampleImg [72]) (RasterImage.mk 0 0 [])

/-- A concrete 14 by 1 image whose channel low bits frame the single byte
255, which is not valid UTF-8. -/
def utf8BadImg : RasterImage :=
  RasterImage.mk 14 1
    (List.replicate 10 (Pixel.mk 0 0 0 0) ++
      [Pixel.mk 0 1 1 0, Pixel.mk 1 1 1 0, Pixel.mk 1 1 1 0, Pixel.mk 1 0 0 0])

end Stego

namespace App

/-- Python whitespace characters, as stripped by str.strip: space, tab,
newline, carriage return, vertical tab, form feed. -/
def isPySpace (c : Char) : Bool :=
  (c.toNat == 32) || (c.toNat == 9) || (c.toNat == 10) || (c.toNat == 13) ||
    (c.toNat == 11) || (c.toNat == 12)

/-- Python str.strip with no argument: removes whitespace from both ends.
Python strings are modelled as lists of characters. -/
def pyStrip (s : List Char) : List Char :=
  ((s.dropWhile isPySpace).reverse.dropWhile isPySpace).reverse

/-- Python str.lower on one character, modelled for the ASCII range (the
characters the comparisons in app.py are about). -/
def pyLowerChar (c : Char) : Char :=
  if 65 ≤ c.toNat && c.toNat ≤ 90 then Char.ofNat (c.toNat + 32) else c

/-- Python str.lower over a string, modelled for the ASCII range. -/
def pyLower (s : List Char) : List Char :=
  s.map pyLowerChar

/-- Python str.startswith: the first argument is the pattern tested
against the front of the second. -/
def beginsWith : List Char → List Char → Bool
  | [], _ => true
  | _ :: _, [] => false
  | p :: ps, c :: cs => (p == c) && beginsWith ps cs

/-- The literal mailto: scheme tested by extract_links_from_index. -/
def mailtoChars : List Char := ['m', 'a', 'i', 'l', 't', 'o', ':']

/-- The literal javascript: scheme tested by extract_links_from_index. -/
def javascriptChars : List Char :=
  ['j', 'a', 'v', 'a', 's', 'c', 'r', 'i', 'p', 't', ':']

/-- The links list built by extract_links_from_index (app.py lines 57-64)
before deduplication.  BeautifulSoup's HTML parsing is abstracted: the
input is the href attribute of each anchor inside each table with class
sf-2col-tbl, in document order, and urllib's urljoin is passed in as a
function. -/
def linksOf (urljoin : List Char → List Char → List Char)
    (tables : List (List (List Char))) (base_url : List Char) : List (List Char) :=
  tables.flatMap (fun anchors =>
    anchors.filterMap (fun href0 =>
      let href := pyStrip href0
      if beginsWith mailtoChars (pyLower href) || beginsWith javascriptChars (pyLower href)
      then none
      else some (urljoin base_url href)))

/-- The seen-set deduplication loop of extract_links_from_index
(app.py lines 65-69): keeps the first occurrence of each URL. -/
def dedupSeen (seen : List (List Char)) : List (List Char) → List (List Char)
  | [] => []
  | u :: us => if u ∈ seen then dedupSeen seen us else u :: dedupSeen (u :: seen) us

/-- extract_links_from_index (app.py lines 55-70): collect anchors from
tables of class sf-2col-tbl, skip mailto: and javascript: hrefs
case-insensitively, join against the base URL, deduplicate keeping first
occurrences. -/
def extract_links_from_index (urljoin : List Char → List Char → List Char)
    (tables : List (List (List Char))) (base_url : List Char) : List (List Char) :=
  dedupSeen [] (linksOf urljoin tables base_url)

/-- The character class [0-9A-Za-z] of slug_from_url's regexes. -/
def isAlnumAscii (c : Char) : Bool :=
  (48 ≤ c.toNat && c.toNat ≤ 57) || (65 ≤ c.toNat && c.toNat ≤ 90) ||
    (97 ≤ c.toNat && c.toNat ≤ 122)

/-- Python path.rstrip with argument slash: removes trailing slashes. -/
def rstripSlash (s : List Char) : List Char :=
  (s.reverse.dropWhile (fun c => c == '/')).reverse

/-- Python str.split on the slash separator, keeping empty pieces; the
empty string splits to one empty piece. -/
def splitSlash : List Char → List (List Char)
  | [] => [[]]
  | c :: cs =>
    match splitSlash cs with
    | [] => [[c]]
    | p :: rest => if c == '/' then [] :: p :: rest else (c :: p) :: rest

/-- The extension-stripping step of slug_from_url (app.py line 30), the
regex that removes a final dot followed by one or more alphanumerics. -/
def stripExt (raw : List Char) : List Char :=
  let ext := raw.reverse.takeWhile isAlnumAscii
  match raw.reverse.dropWhile isAlnumAscii with
  | '.' :: restRev => if ext.isEmpty then raw else restRev.reverse
  | _ => raw

/-- The sanitizing regex of slug_from_url (app.py line 31): each maximal
run of characters outside [0-9A-Za-z] becomes a single hyphen.  The flag
records whether the previous character was inside such a run. -/
def sanitizeGo : Bool → List Char → List Char
  | _, [] => []
  | inRun, c :: cs =>
    if isAlnumAscii c then c :: sanitizeGo false cs
    else if inRun then sanitizeGo true cs
    else '-' :: sanitizeGo true cs

/-- re.sub of one or more non-alphanumerics by a hyphen. -/
def sanitize (s : List Char) : List Char :=
  sanitizeGo false s

/-- The hyphen test of str.strip with a hyphen argument. -/
def isHyphen (c : Char) : Bool := c == '-'

/-- Python str.strip with a hyphen argument: removes hyphens from both
ends. -/
def stripHyphen (s : List Char) : List Char :=
  ((s.dropWhile isHyphen).reverse.dropWhile isHyphen).reverse

/-- The raw-name selection of slug_from_url (app.py lines 23-28): the URL
fragment when present, else the last path segment, else the netloc.
urlparse is abstracted: the parsed components are the inputs. -/
def rawName (fragment path netloc : List Char) : List Char :=
  if fragment.isEmpty then
    let seg := List.getLastD (splitSlash (rstripSlash path)) []
    if seg.isEmpty then netloc else seg
  else fragment

/-- The fallback slug returned on an empty sanitized name. -/
def sanfoundryChars : List Char :=
  ['s', 'a', 'n', 'f', 'o', 'u', 'n', 'd', 'r', 'y']

/-- slug_from_url (app.py lines 22-32).  urllib's urlparse and unquote are
external library calls: the parsed components are inputs, and unquote is
passed in as a function (the identity on inputs with no percent escapes).
Pipeline: pick the raw name, unquote, strip a trailing dot-extension,
replace non-alphanumeric runs by hyphens, strip hyphens at the ends,
lowercase, truncate to 120 characters, and fall back to sanfoundry if
empty. -/
def slug_from_url (unquote : List Char → List Char)
    (fragment path netloc : List Char) : List Char :=
  let raw := unquote (rawName fragment path netloc)
  let slug := List.take 120 (pyLower (stripHyphen (sanitize (stripExt raw))))
  if slug.isEmpty then sanfoundryChars else slug

/-- The character class [a-z] of format_choices' split regex. -/
def isLowerAZ (c : Char) : Bool :=
  97 ≤ c.toNat && c.toNat ≤ 122

/-- The combined effect of replacing carriage-return-linefeed pairs and
then lone carriage returns by linefeeds (app.py line 73). -/
def replaceCRLF : List Char → List Char
  | [] => []
  | '\r' :: '\n' :: cs => '\n' :: replaceCRLF cs
  | c :: cs => (if c == '\r' then '\n' else c) :: replaceCRLF cs

/-- The preprocessed text of format_choices (app.py line 73):
`(text or "").strip()` followed by the newline normalization. -/
def pyText (text : Option (List Char)) : List Char :=
  replaceCRLF (pyStrip (text.getD []))

/-- re.split on the multiline pattern of a lowercase letter followed by a
closing parenthesis at a line start, with the separator captured: returns
the text before the first separator and the list of pairs of separator and
following text.  The flag records whether the scan position is at a line
start. -/
def splitChoicesAux : Bool → List Char → List Char × List (List Char × List Char)
  | _, [] => ([], [])
  | _, [c] => ([c], [])
  | atStart, c :: c2 :: cs2 =>
    if atStart && isLowerAZ c && (c2 == ')') then
      let r := splitChoicesAux false cs2
      ([], ([c, c2], r.1) :: r.2)
    else
      let r := splitChoicesAux (c == '\n') (c2 :: cs2)
      (c :: r.1, r.2)

/-- Python dict insertion: replace the value in place when the key exists,
append otherwise. -/
def dictInsert : List (List Char × List Char) → List Char → List Char →
    List (List Char × List Char)
  | [], k, v => [(k, v)]
  | (k', v') :: rest, k, v =>
    if k' == k then (k', v) :: rest else (k', v') :: dictInsert rest k v

/-- The loop of format_choices (app.py lines 76-79): for each separator,
bind its stripped text to the stripped following part plus a newline. -/
def buildDict (acc : List (List Char × List Char)) :
    List (List Char × List Char) → List (List Char × List Char)
  | [] => acc
  | (sep, part) :: rest =>
    buildDict (dictInsert acc (pyStrip sep) (pyStrip part ++ ['\n'])) rest

/-- format_choices (app.py lines 72-80).  The returned dict is modelled as
an association list in insertion order. -/
def format_choices (text : Option (List Char)) : List (List Char × List Char) :=
  buildDict [] (splitChoicesAux true (pyText text)).2

/-- Whether the text contains a choice marker: a lowercase letter followed
by a closing parenthesis at a line start (the flag records whether the
scan position is at a line start). -/
def hasMarker : Bool → List Char → Bool
  | _, [] => false
  | _, [_] => false
  | atStart, c :: c2 :: cs2 =>
    (atStart && isLowerAZ c && (c2 == ')')) || hasMarker (c == '\n') (c2 :: cs2)

/-- Reference definition of first-occurrence deduplication, the claim's
notion of keeping the links in first-occurrence order: keep the head and
delete every later duplicate of it before recursing on the rest.  Stated
independently of the seen-set loop to compare the two. -/
def firstOccur : List (List Char) → List (List Char)
  | [] => []
  | u :: us => u :: firstOccur (us.filter (fun v => !(v == u)))
termination_by l => l.length
decreasing_by
  have h := List.length_filter_le (fun v => !(v == u)) us
  simp only [List.length_cons]
  omega

end App

namespace Stego

theorem natToBits_length (w n : Nat) : (natToBits w n).length = w := by
  induction w generalizing n with
  | zero => simp [natToBits]
  | succ w ih => simp [natToBits, ih]

theorem bitsToNat_append_bit (xs : List Bool) (b : Bool) :
    bitsToNat (xs ++ [b]) = 2 * bitsToNat xs + (if b then 1 else 0) := by
  simp [bitsToNat, List.foldl_append]

theorem bitsToNat_natToBits (w n : Nat) : bitsToNat (natToBits w n) = n % 2 ^ w := by
  induction w generalizing n with
  | zero => simp [natToBits, bitsToNat, Nat.mod_one]
  | succ w ih =>
    rw [natToBits, bitsToNat_append_bit, ih]
    have h2 : n % 2 ^ (w + 1) = n % 2 + 2 * (n / 2 % 2 ^ w) := by
      rw [pow_succ, mul_comm (2 ^ w) 2, Nat.mod_mul]
    rw [h2]
    rcases Nat.mod_two_eq_zero_or_one n with hm | hm <;> simp [hm] <;> omega

theorem natToBits_getD (w n i : Nat) (hi : i < w) :
    (natToBits w n).getD i false = decide (n / 2 ^ (w - 1 - i) % 2 = 1) := by
  induction w generalizing n i with
  | zero => omega
  | succ w ih =>
    rw [natToBits]
    rcases Nat.lt_or_ge i w with hlt | hge
    · rw [List.getD_append _ _ _ _ (by simp [natToBits_length]; omega)]
      rw [ih (n / 2) i hlt]
      have he : 2 * 2 ^ (w - 1 - i) = 2 ^ (w - i) := by
        have hwi : w - i = (w - 1 - i) + 1 := by omega
        rw [hwi, pow_succ]; ring
      have hww : w + 1 - 1 - i = w - i := by omega
      rw [Nat.div_div_eq_div_mul, he, hww]
    · have hiw : i = w := by omega
      subst hiw
      rw [List.getD_append_right _ _ _ _ (by simp [natToBits_length])]
      simp [natToBits_length]

theorem bytesToBits_length (m : List Nat) : (bytesToBits m).length = 8 * m.length := by
  induction m with
  | nil => simp [bytesToBits]
  | cons b m ih =>
    simp only [bytesToBits, List.flatMap_cons, List.length_append, natToBits_length,
      List.length_cons] at *
    omega

theorem serialize_length (m : List Nat) : (serialize m).length = 32 + 8 * m.length := by
  simp [serialize, natToBits_length, bytesToBits_length]

theorem bytesFromBits_chunk (l rest : List Bool) (hl : l.length = 8) :
    bytesFromBits (l ++ rest) = bitsToNat l :: bytesFromBits rest := by
  match l with
  | [] => simp at hl
  | x :: xs =>
    have hxs : xs.length = 7 := by simpa using hl
    rw [List.cons_append, bytesFromBits]
    have ht : List.take 8 (x :: (xs ++ rest)) = x :: xs := by
      have : List.take 7 (xs ++ rest) = xs := by
        have := List.take_left xs rest
        rwa [hxs] at this
      simp [List.take_succ_cons, this]
    have hd : List.drop 7 (xs ++ rest) = rest := by
      have := List.drop_left xs rest
      rwa [hxs] at this
    rw [ht, hd]

theorem bytesFromBits_bytesToBits (m : List Nat) (hm : ∀ b ∈ m, b < 256) :
    bytesFromBits (bytesToBits m) = m := by
  induction m with
  | nil => simp [bytesToBits, bytesFromBits]
  | cons b m ih =>
    have hb : b < 256 := hm b (by simp)
    have hrest : ∀ x ∈ m, x < 256 := fun x hx => hm x (by simp [hx])
    rw [bytesToBits, List.flatMap_cons]
    rw [bytesFromBits_chunk _ _ (natToBits_length 8 b)]
    rw [bitsToNat_natToBits]
    rw [Nat.mod_eq_of_lt (by norm_num; omega)]
    simp only [bytesToBits] at ih
    rw [ih hrest]

theorem setLSB_mod_two (v : Nat) (b : Bool) : setLSB v b % 2 = if b then 1 else 0 := by
  cases b <;> simp [setLSB] <;> omega

theorem channels_nil : channels [] = [] := rfl

theorem channels_cons (p : Pixel) (ps : List Pixel) :
    channels (p :: ps) = p.r :: p.g :: p.b :: channels ps := by
  simp [channels]

theorem channels_length (ps : List Pixel) : (channels ps).length = 3 * ps.length := by
  induction ps with
  | nil => simp [channels]
  | cons p ps ih => rw [channels_cons]; simp [ih]; omega

theorem writePixels_nil_bits (ps : List Pixel) : writePixels ps [] = ps := by
  cases ps <;> rfl

theorem writePixels_nil_pixels (bits : List Bool) : writePixels [] bits = [] := by
  cases bits <;> rfl

theorem channels_writePixels (ps : List Pixel) (bits : List Bool) :
    channels (writePixels ps bits) = zipSetLSB bits (channels ps) := by
  induction ps generalizing bits with
  | nil =>
    rw [writePixels_nil_pixels, channels_nil]
    cases bits <;> rfl
  | cons p ps ih =>
    match bits with
    | [] => rw [writePixels_nil_bits]; rfl
    | [b1] =>
      rw [writePixels, channels_cons, channels_cons, zipSetLSB, zipSetLSB]
    | [b1, b2] =>
      rw [writePixels, channels_cons, channels_cons, zipSetLSB, zipSetLSB, zipSetLSB]
    | b1 :: b2 :: b3 :: bs3 =>
      rw [writePixels, channels_cons, channels_cons, zipSetLSB, zipSetLSB, zipSetLSB,
        ih bs3]

theorem zipSetLSB_length (bits : List Bool) (vs : List Nat) :
    (zipSetLSB bits vs).length = vs.length := by
  induction bits generalizing vs with
  | nil => rfl
  | cons b bs ih =>
    cases vs with
    | nil => rfl
    | cons v vs => simp [zipSetLSB, ih]

theorem zipSetLSB_drop (bits : List Bool) (vs : List Nat) :
    List.drop bits.length (zipSetLSB bits vs) = List.drop bits.length vs := by
  induction bits generalizing vs with
  | nil => rfl
  | cons b bs ih =>
    cases vs with
    | nil => simp [zipSetLSB]
    | cons v vs => simp [zipSetLSB, ih]

theorem zipSetLSB_map_lsb (bits : List Bool) (vs : List Nat)
    (h : bits.length ≤ vs.length) :
    (zipSetLSB bits vs).map (fun v => decide (v % 2 = 1)) =
      bits ++ (List.drop bits.length vs).map (fun v => decide (v % 2 = 1)) := by
  induction bits generalizing vs with
  | nil => rfl
  | cons b bs ih =>
    cases vs with
    | nil => simp at h
    | cons v vs =>
      simp only [zipSetLSB, List.map_cons, List.length_cons, List.drop_succ_cons]
      rw [ih vs (by simpa using h)]
      have hb : decide (setLSB v b % 2 = 1) = b := by
        cases b <;> simp [setLSB_mod_two]
      rw [hb]
      rfl

theorem writePixels_map_alpha (ps : List Pixel) (bits : List Bool) :
    (writePixels ps bits).map Pixel.a = ps.map Pixel.a := by
  induction ps generalizing bits with
  | nil => rw [writePixels_nil_pixels]
  | cons p ps ih =>
    match bits with
    | [] => rw [writePixels_nil_bits]
    | [b1] => rw [writePixels]; simp
    | [b1, b2] => rw [writePixels]; simp
    | b1 :: b2 :: b3 :: bs3 => rw [writePixels]; simp [ih bs3]

theorem writePixels_length (ps : List Pixel) (bits : List Bool) :
    (writePixels ps bits).length = ps.length := by
  have h := congrArg List.length (writePixels_map_alpha ps bits)
  simpa using h

theorem readBits_writePixels (ps : List Pixel) (bits : List Bool) :
    readBits (writePixels ps bits) =
      (zipSetLSB bits (channels ps)).map (fun v => decide (v % 2 = 1)) := by
  rw [readBits, channels_writePixels]

theorem deserialize_frame (m : List Nat) (suffix : List Bool)
    (hbytes : ∀ b ∈ m, b < 256) (hlen : m.length < 2 ^ 32) :
    deserialize (serialize m ++ suffix) = some m := by
  have h32 : (natToBits 32 m.length).length = 32 := natToBits_length 32 m.length
  have hbl : (bytesToBits m).length = 8 * m.length := bytesToBits_length m
  rw [serialize, List.append_assoc, deserialize]
  rw [if_neg (by simp [h32, hbl])]
  have htake : List.take 32 (natToBits 32 m.length ++ (bytesToBits m ++ suffix))
      = natToBits 32 m.length := by
    have h := List.take_left (natToBits 32 m.length) (bytesToBits m ++ suffix)
    rwa [h32] at h
  have hdrop : List.drop 32 (natToBits 32 m.length ++ (bytesToBits m ++ suffix))
      = bytesToBits m ++ suffix := by
    have h := List.drop_left (natToBits 32 m.length) (bytesToBits m ++ suffix)
    rwa [h32] at h
  simp only [htake, hdrop, bitsToNat_natToBits, Nat.mod_eq_of_lt hlen]
  rw [if_neg (by simp [hbl]; omega)]
  have htake2 : List.take (m.length * 8) (bytesToBits m ++ suffix) = bytesToBits m := by
    have h := List.take_left (bytesToBits m) suffix
    rw [hbl] at h
    rw [mul_comm]
    exact h
  rw [htake2, bytesFromBits_bytesToBits m hbytes]

theorem bytesToBits_getD (m : List Nat) (j k : Nat) (hj : j < m.length) (hk : k < 8) :
    (bytesToBits m).getD (8 * j + k) false =
      decide (m.getD j 0 / 2 ^ (7 - k) % 2 = 1) := by
  induction m generalizing j with
  | nil => simp at hj
  | cons b m ih =>
    rw [bytesToBits, List.flatMap_cons]
    cases j with
    | zero =>
      simp only [Nat.mul_zero, Nat.zero_add, List.getD_cons_zero]
      rw [List.getD_append _ _ _ _ (by rw [natToBits_length]; omega)]
      have h := natToBits_getD 8 b k (by omega)
      have h81 : (8 : Nat) - 1 - k = 7 - k := by omega
      rw [h81] at h
      exact h
    | succ j' =>
      rw [List.getD_append_right _ _ _ _ (by rw [natToBits_length]; omega)]
      rw [natToBits_length]
      have hidx : 8 * (j' + 1) + k - 8 = 8 * j' + k := by omega
      rw [hidx]
      simp only [bytesToBits] at ih
      rw [ih j' (by simpa using hj)]
      simp [List.getD_cons_succ]

end Stego

namespace Stego

/-- C4: the bit framer's serialize emits exactly 32 + 8 * len bits with no
padding, checksum or terminator; bit i of the first 32 is bit 31 - i of
the payload length (big-endian, MSB first), and bit k of byte j's block is
bit 7 - k of that byte, in original byte order. -/
theorem serialize_layout (m : List Nat) :
    (serialize m).length = 32 + 8 * m.length ∧
    (∀ i, i < 32 →
      (serialize m).getD i false = decide (m.length / 2 ^ (31 - i) % 2 = 1)) ∧
    (∀ j k, j < m.length → k < 8 →
      (serialize m).getD (32 + (8 * j + k)) false =
        decide (m.getD j 0 / 2 ^ (7 - k) % 2 = 1)) := by
  refine ⟨serialize_length m, ?_, ?_⟩
  · intro i hi
    rw [serialize, List.getD_append _ _ _ _ (by rw [natToBits_length]; omega)]
    have h := natToBits_getD 32 m.length i hi
    have h321 : (32 : Nat) - 1 - i = 31 - i := by omega
    rw [h321] at h
    exact h
  · intro j k hj hk
    rw [serialize, List.getD_append_right _ _ _ _ (by rw [natToBits_length]; omega)]
    rw [natToBits_length]
    have hidx : 32 + (8 * j + k) - 32 = 8 * j + k := by omega
    rw [hidx]
    exact bytesToBits_getD m j k hj hk

/-- C4 witness: the framing of the single byte 200. -/
theorem serialize_layout_witness :
    (serialize [200]).length = 32 + 8 * [200].length ∧
    (serialize [200]).getD 31 false = decide ([200].length / 2 ^ (31 - 31) % 2 = 1) ∧
    (serialize [200]).getD (32 + (8 * 0 + 7)) false =
      decide ([200].getD 0 0 / 2 ^ (7 - 7) % 2 = 1) :=
  ⟨(serialize_layout [200]).1, (serialize_layout [200]).2.1 31 (by decide),
    (serialize_layout [200]).2.2 0 7 (by decide) (by decide)⟩

end Stego

namespace Stego

/-- C1: round trip.  For every image whose capacity satisfies
`width * height * 3 >= 32 + 8 * len m` and every UTF-8-encodable message
`m` (a byte list, of length fitting the 32-bit length field), decoding the
image produced by encoding `m` into that image yields exactly `m`. -/
theorem encode_decode_roundtrip (img : RasterImage) (m : List Nat)
    (hwf : img.pixels.length = img.width * img.height)
    (hcap : 32 + 8 * m.length ≤ img.width * img.height * 3)
    (hbytes : ∀ b ∈ m, b < 256)
    (hlen : m.length < 2 ^ 32)
    (hutf : validUtf8 m = true) :
    ∃ img2, encode img m = Except.ok img2 ∧ decode img2 = some m := by
  have hguard : ¬ (capacity img.width img.height < 32 + m.length * 8) := by
    rw [capacity]; omega
  refine ⟨RasterImage.mk img.width img.height (writePixels img.pixels (serialize m)), ?_, ?_⟩
  · simp only [encode]
    rw [if_neg hguard]
  · have hle : (serialize m).length ≤ (channels img.pixels).length := by
      rw [serialize_length, channels_length, hwf]; omega
    have hread : readBits (writePixels img.pixels (serialize m)) =
        serialize m ++
          (List.drop (serialize m).length (channels img.pixels)).map
            (fun v => decide (v % 2 = 1)) := by
      rw [readBits_writePixels, zipSetLSB_map_lsb _ _ hle]
    rw [decode]
    simp only [hread, deserialize_frame m _ hbytes hlen]
    simp [hutf]

/-- C1 witness: a concrete 4 by 4 image and the two-byte ASCII message Hi. -/
theorem encode_decode_roundtrip_witness :
    ∃ img2,
      encode (RasterImage.mk 4 4 (List.replicate 16 (Pixel.mk 10 20 30 40))) [72, 105] =
        Except.ok img2 ∧ decode img2 = some [72, 105] :=
  encode_decode_roundtrip
    (RasterImage.mk 4 4 (List.replicate 16 (Pixel.mk 10 20 30 40))) [72, 105]
    (by decide) (by decide) (by decide) (by decide) (by decide)

/-- C2: for every image, the embedding capacity in bits equals
`width * height * 3`, and a payload is embeddable (both by the `fits`
predicate and by `encode` actually succeeding) if and only if
`32 + 8 * payload_byte_len` is at most `width * height * 3`. -/
theorem capacity_and_embeddable (img : RasterImage) (m : List Nat) :
    capacity img.width img.height = img.width * img.height * 3 ∧
    (fits img.width img.height m.length = true ↔
      32 + 8 * m.length ≤ img.width * img.height * 3) ∧
    ((∃ img2, encode img m = Except.ok img2) ↔
      32 + 8 * m.length ≤ img.width * img.height * 3) := by
  refine ⟨rfl, ?_, ?_⟩
  · rw [fits, capacity, decide_eq_true_eq]
    omega
  · constructor
    · rintro ⟨img2, hok⟩
      by_contra hc
      push_neg at hc
      have hguard : capacity img.width img.height < 32 + m.length * 8 := by
        rw [capacity]; omega
      simp only [encode] at hok
      rw [if_pos hguard] at hok
      exact absurd hok (by simp)
    · intro hle
      have hguard : ¬ (capacity img.width img.height < 32 + m.length * 8) := by
        rw [capacity]; omega
      refine ⟨RasterImage.mk img.width img.height
        (writePixels img.pixels (serialize m)), ?_⟩
      simp only [encode]
      rw [if_neg hguard]

/-- C2 witness: the 4 by 4 image has capacity 48 and a 2-byte payload is
embeddable there, while a 3-byte payload is not. -/
theorem capacity_and_embeddable_witness :
    capacity 4 4 = 48 ∧
    (∃ img2,
      encode (RasterImage.mk 4 4 (List.replicate 16 (Pixel.mk 10 20 30 40))) [65, 66] =
        Except.ok img2) ∧
    fits 4 4 3 = false := by
  refine ⟨by decide, ?_, by decide⟩
  exact (capacity_and_embeddable
    (RasterImage.mk 4 4 (List.replicate 16 (Pixel.mk 10 20 30 40))) [65, 66]).2.2.mpr
    (by decide)

/-- C3: encoding succeeds when the needed bit count equals the available
bit count, and fails with a CapacityExceeded error carrying both figures
when the needed bit count exceeds it by one. -/
theorem encode_capacity_boundary (img : RasterImage) (m : List Nat) :
    (32 + m.length * 8 = capacity img.width img.height →
      ∃ img2, encode img m = Except.ok img2) ∧
    (32 + m.length * 8 = capacity img.width img.height + 1 →
      encode img m = Except.error
        (CapacityError.mk (capacity img.width img.height) (32 + m.length * 8))) := by
  constructor
  · intro heq
    refine ⟨RasterImage.mk img.width img.height
      (writePixels img.pixels (serialize m)), ?_⟩
    simp only [encode]
    rw [if_neg (by omega)]
  · intro heq
    simp only [encode]
    rw [if_pos (by omega)]

/-- C3 witness: on a 4 by 4 image (48 bits available) a 2-byte message
needs exactly 48 bits and succeeds; on a 13 by 1 image (39 bits available)
a 1-byte message needs 40 bits and fails with the exact figures. -/
theorem encode_capacity_boundary_witness :
    (∃ img2,
      encode (RasterImage.mk 4 4 (List.replicate 16 (Pixel.mk 10 20 30 40))) [65, 66] =
        Except.ok img2) ∧
    encode (RasterImage.mk 13 1 (List.replicate 13 (Pixel.mk 10 20 30 40))) [65] =
      Except.error (CapacityError.mk 39 40) := by
  constructor
  · exact (encode_capacity_boundary
      (RasterImage.mk 4 4 (List.replicate 16 (Pixel.mk 10 20 30 40))) [65, 66]).1 (by decide)
  · exact (encode_capacity_boundary
      (RasterImage.mk 13 1 (List.replicate 13 (Pixel.mk 10 20 30 40))) [65]).2 (by decide)

/-- C6: a successful encode preserves the image dimensions, leaves every
pixel's alpha channel equal to the input's alpha channel, and leaves every
red, green or blue channel visited after the frame's `32 + 8 * len m`
bits are exhausted byte-for-byte unchanged. -/
theorem encode_alpha_and_unused_preserved (img : RasterImage) (m : List Nat)
    (img2 : RasterImage) (hok : encode img m = Except.ok img2) :
    img2.width = img.width ∧ img2.height = img.height ∧
    img2.pixels.map Pixel.a = img.pixels.map Pixel.a ∧
    List.drop (32 + 8 * m.length) (channels img2.pixels) =
      List.drop (32 + 8 * m.length) (channels img.pixels) := by
  simp only [encode] at hok
  by_cases hc : capacity img.width img.height < 32 + m.length * 8
  · rw [if_pos hc] at hok
    exact absurd hok (by simp)
  · rw [if_neg hc] at hok
    have h2 : img2 = RasterImage.mk img.width img.height
        (writePixels img.pixels (serialize m)) := by
      injection hok with h
      exact h.symm
    subst h2
    refine ⟨rfl, rfl, writePixels_map_alpha img.pixels (serialize m), ?_⟩
    show List.drop (32 + 8 * m.length) (channels (writePixels img.pixels (serialize m))) = _
    rw [channels_writePixels]
    have h := zipSetLSB_drop (serialize m) (channels img.pixels)
    rwa [serialize_length] at h

/-- C6 witness: the properties hold at a concrete encode call. -/
theorem encode_alpha_and_unused_preserved_witness :
    sampleEncoded.width = 4 ∧ sampleEncoded.height = 4 ∧
    sampleEncoded.pixels.map Pixel.a = sampleImg.pixels.map Pixel.a ∧
    List.drop 40 (channels sampleEncoded.pixels) = List.drop 40 (channels sampleImg.pixels) := by
  have h := encode_alpha_and_unused_preserved sampleImg [72] sampleEncoded (by rfl)
  exact h

/-- C7: the decoder is total and returns the sentinel `none` whenever fewer
than 32 bits are available, whenever the 32-bit length prefix implies more
payload bits than the image holds, and whenever the recovered bytes are
not valid UTF-8. -/
theorem decode_sentinel_cases (img : RasterImage) :
    ((readBits img.pixels).length < 32 → decode img = none) ∧
    ((readBits img.pixels).length <
        32 + bitsToNat (List.take 32 (readBits img.pixels)) * 8 →
      decode img = none) ∧
    (∀ bytes, deserialize (readBits img.pixels) = some bytes →
      validUtf8 bytes = false → decode img = none) := by
  refine ⟨?_, ?_, ?_⟩
  · intro h
    have hd : deserialize (readBits img.pixels) = none := by
      rw [deserialize, if_pos h]
    rw [decode, hd]
  · intro h
    by_cases h32 : (readBits img.pixels).length < 32
    · have hd : deserialize (readBits img.pixels) = none := by
        rw [deserialize, if_pos h32]
      rw [decode, hd]
    · have hd : deserialize (readBits img.pixels) = none := by
        rw [deserialize, if_neg h32]
        simp only [List.length_drop]
        rw [if_pos (by omega)]
      rw [decode, hd]
  · intro bytes hsome hval
    rw [decode, hsome]
    simp [hval]

/-- C7 witness: a 1 by 1 image offers only 3 bits, and a 14 by 1 image
whose low bits frame the single byte 255 fails UTF-8 validation; both
decode to the sentinel `none`. -/
theorem decode_sentinel_cases_witness :
    decode (RasterImage.mk 1 1 [Pixel.mk 0 0 0 0]) = none ∧
    decode utf8BadImg = none := by
  constructor
  · exact (decode_sentinel_cases (RasterImage.mk 1 1 [Pixel.mk 0 0 0 0])).1 (by decide)
  · refine (decode_sentinel_cases utf8BadImg).2.2 [255] ?_ (by decide)
    have hr : readBits utf8BadImg.pixels = serialize [255] ++ [false, false] := by decide
    rw [hr]
    exact deserialize_frame [255] [false, false] (by decide) (by decide)

end Stego

namespace App

theorem dedupSeen_sublist (us : List (List Char)) (seen : List (List Char)) :
    (dedupSeen seen us).Sublist us := by
  induction us generalizing seen with
  | nil => simp [dedupSeen]
  | cons u us ih =>
    rw [dedupSeen]
    by_cases hu : u ∈ seen
    · rw [if_pos hu]
      exact (ih seen).cons u
    · rw [if_neg hu]
      exact (ih (u :: seen)).cons₂ u

theorem mem_dedupSeen (us : List (List Char)) (seen : List (List Char)) (x : List Char) :
    x ∈ dedupSeen seen us ↔ x ∈ us ∧ x ∉ seen := by
  induction us generalizing seen with
  | nil => simp [dedupSeen]
  | cons u us ih =>
    rw [dedupSeen]
    by_cases hu : u ∈ seen
    · rw [if_pos hu, ih seen]
      constructor
      · rintro ⟨hx, hs⟩
        exact ⟨List.mem_cons_of_mem u hx, hs⟩
      · rintro ⟨hx, hs⟩
        rcases List.mem_cons.mp hx with rfl | hx
        · exact absurd hu hs
        · exact ⟨hx, hs⟩
    · rw [if_neg hu]
      simp only [List.mem_cons, ih (u :: seen)]
      constructor
      · rintro (rfl | ⟨hx, hs⟩)
        · exact ⟨Or.inl rfl, hu⟩
        · exact ⟨Or.inr hx, fun hc => hs (Or.inr hc)⟩
      · rintro ⟨rfl | hx, hs⟩
        · exact Or.inl rfl
        · by_cases hxu : x = u
          · exact Or.inl hxu
          · exact Or.inr ⟨hx, by simp [hxu, hs]⟩

theorem dedupSeen_nodup (us : List (List Char)) (seen : List (List Char)) :
    (dedupSeen seen us).Nodup := by
  induction us generalizing seen with
  | nil => simp [dedupSeen]
  | cons u us ih =>
    rw [dedupSeen]
    by_cases hu : u ∈ seen
    · rw [if_pos hu]; exact ih seen
    · rw [if_neg hu]
      refine List.nodup_cons.mpr ⟨?_, ih (u :: seen)⟩
      intro hc
      exact ((mem_dedupSeen us (u :: seen) u).mp hc).2 (List.mem_cons_self u seen)

theorem dedupSeen_eq_firstOccur (l : List (List Char)) :
    ∀ seen, dedupSeen seen l = firstOccur (l.filter (fun v => !(seen.contains v))) := by
  induction l with
  | nil => intro seen; simp [dedupSeen, firstOccur]
  | cons u us ih =>
    intro seen
    rw [dedupSeen, List.filter_cons]
    by_cases hu : u ∈ seen
    · rw [if_pos hu]
      rw [if_neg (by simp [List.elem_iff, hu])]
      exact ih seen
    · rw [if_neg hu]
      rw [if_pos (by simp [List.elem_iff, hu])]
      rw [firstOccur, ih (u :: seen), List.filter_filter]
      congr 2
      have hfun : (fun v : List Char => !((u :: seen).contains v)) =
          (fun a : List Char => !(a == u) && !(seen.contains a)) := by
        funext v
        by_cases hv : v = u
        · simp [hv, List.elem_iff]
        · by_cases hs : v ∈ seen <;> simp [List.elem_iff, hv, hs]
      rw [hfun]

end App

namespace App

/-- C8: the links extracted from an HTML index (BeautifulSoup abstracted
as the list of anchor hrefs per sf-2col-tbl table, urljoin as a function)
contain no duplicates and equal the first-occurrence deduplication of the
pre-deduplication links, keeping each URL's first occurrence in order
(hence a sublist containing exactly the joined links), and every element
comes from an anchor of one of the selected tables whose stripped href
starts, case-insensitively, with neither mailto: nor javascript:. -/
theorem extract_links_spec (urljoin : List Char → List Char → List Char)
    (tables : List (List (List Char))) (base_url : List Char) :
    (extract_links_from_index urljoin tables base_url).Nodup ∧
    extract_links_from_index urljoin tables base_url =
      firstOccur (linksOf urljoin tables base_url) ∧
    (extract_links_from_index urljoin tables base_url).Sublist
      (linksOf urljoin tables base_url) ∧
    (∀ u, u ∈ extract_links_from_index urljoin tables base_url ↔
      u ∈ linksOf urljoin tables base_url) ∧
    (∀ u ∈ extract_links_from_index urljoin tables base_url,
      ∃ anchors ∈ tables, ∃ href ∈ anchors,
        beginsWith mailtoChars (pyLower (pyStrip href)) = false ∧
        beginsWith javascriptChars (pyLower (pyStrip href)) = false ∧
        u = urljoin base_url (pyStrip href)) := by
  have heq : extract_links_from_index urljoin tables base_url =
      firstOccur (linksOf urljoin tables base_url) := by
    rw [extract_links_from_index, dedupSeen_eq_firstOccur]
    congr 1
    simp
  refine ⟨dedupSeen_nodup _ [], heq, dedupSeen_sublist _ [], ?_, ?_⟩
  · intro u
    rw [extract_links_from_index, mem_dedupSeen]
    simp
  · intro u hu
    have hmem : u ∈ linksOf urljoin tables base_url := by
      rw [extract_links_from_index, mem_dedupSeen] at hu
      exact hu.1
    rw [linksOf, List.mem_flatMap] at hmem
    obtain ⟨anchors, hanchors, hmem⟩ := hmem
    rw [List.mem_filterMap] at hmem
    obtain ⟨href, hhref, heq⟩ := hmem
    refine ⟨anchors, hanchors, href, hhref, ?_⟩
    by_cases hcond : (beginsWith mailtoChars (pyLower (pyStrip href)) ||
        beginsWith javascriptChars (pyLower (pyStrip href))) = true
    · rw [if_pos hcond] at heq
      exact absurd heq (by simp)
    · rw [if_neg hcond] at heq
      have hsplit := Bool.or_eq_false_iff.mp (Bool.eq_false_iff.mpr hcond)
      exact ⟨hsplit.1, hsplit.2, (Option.some.injEq _ _ ▸ heq).symm⟩

/-- C8 witness: one table with a duplicated anchor and an uppercase MAILTO
link; the result is the single joined URL, duplicate-free, and its element
traces back to a non-excluded anchor. -/
theorem extract_links_spec_witness :
    (extract_links_from_index (fun b h => b ++ h)
        [[[' ', 'x'], ['M', 'A', 'I', 'L', 'T', 'O', ':', 'y'], ['x']]]
        ['u', '/']).Nodup ∧
    (['u', '/', 'x'] ∈ extract_links_from_index (fun b h => b ++ h)
        [[[' ', 'x'], ['M', 'A', 'I', 'L', 'T', 'O', ':', 'y'], ['x']]] ['u', '/']) ∧
    (∃ anchors ∈ [[[' ', 'x'], ['M', 'A', 'I', 'L', 'T', 'O', ':', 'y'], ['x']]],
      ∃ href ∈ anchors,
        beginsWith mailtoChars (pyLower (pyStrip href)) = false ∧
        beginsWith javascriptChars (pyLower (pyStrip href)) = false ∧
        ['u', '/', 'x'] = (fun (b h : List Char) => b ++ h) ['u', '/'] (pyStrip href)) := by
  refine ⟨(extract_links_spec (fun b h => b ++ h)
      [[[' ', 'x'], ['M', 'A', 'I', 'L', 'T', 'O', ':', 'y'], ['x']]] ['u', '/']).1,
    by decide, ?_⟩
  exact (extract_links_spec (fun b h => b ++ h)
      [[[' ', 'x'], ['M', 'A', 'I', 'L', 'T', 'O', ':', 'y'], ['x']]] ['u', '/']).2.2.2.2
    ['u', '/', 'x'] (by decide)

theorem toNat_ofNat_small (n : Nat) (h : n < 55296) : (Char.ofNat n).toNat = n := by
  have hv : n.isValidChar := Or.inl h
  rw [Char.ofNat, dif_pos hv]
  rfl

theorem mem_of_dropWhile {p : Char → Bool} {l : List Char} {x : Char}
    (h : x ∈ l.dropWhile p) : x ∈ l :=
  (List.dropWhile_suffix p).sublist.subset h

theorem dropWhile_head_false (p : Char → Bool) :
    ∀ (l : List Char) (c : Char) (r : List Char), l.dropWhile p = c :: r → p c = false := by
  intro l
  induction l with
  | nil => intro c r h; simp at h
  | cons a l ih =>
    intro c r h
    rw [List.dropWhile_cons] at h
    by_cases ha : p a = true
    · rw [if_pos ha] at h
      exact ih c r h
    · rw [if_neg ha] at h
      obtain ⟨rfl, -⟩ := List.cons.inj h
      exact Bool.eq_false_iff.mpr ha

theorem sanitizeGo_chars (s : List Char) :
    ∀ (flag : Bool), ∀ c ∈ sanitizeGo flag s, isAlnumAscii c = true ∨ c = '-' := by
  induction s with
  | nil => intro flag c hc; simp [sanitizeGo] at hc
  | cons a s ih =>
    intro flag c hc
    rw [sanitizeGo] at hc
    by_cases ha : isAlnumAscii a = true
    · rw [if_pos ha] at hc
      rcases List.mem_cons.mp hc with rfl | hc
      · exact Or.inl ha
      · exact ih false c hc
    · rw [if_neg ha] at hc
      cases flag with
      | true => simpa using ih true c (by simpa using hc)
      | false =>
        simp only [Bool.false_eq_true, if_false] at hc
        rcases List.mem_cons.mp hc with rfl | hc
        · exact Or.inr rfl
        · exact ih true c hc

theorem mem_stripHyphen {s : List Char} {c : Char} (h : c ∈ stripHyphen s) : c ∈ s := by
  rw [stripHyphen] at h
  rw [List.mem_reverse] at h
  have h2 := mem_of_dropWhile h
  rw [List.mem_reverse] at h2
  exact mem_of_dropWhile h2

theorem stripHyphen_head (s : List Char) (c : Char) (r : List Char)
    (h : stripHyphen s = c :: r) : isHyphen c = false := by
  rw [stripHyphen] at h
  obtain ⟨w, hw⟩ := List.dropWhile_suffix (l := (s.dropWhile isHyphen).reverse) isHyphen
  have ht : s.dropWhile isHyphen =
      ((s.dropWhile isHyphen).reverse.dropWhile isHyphen).reverse ++ w.reverse := by
    have h2 := congrArg List.reverse hw
    simpa using h2.symm
  rw [h] at ht
  exact dropWhile_head_false isHyphen s c (r ++ w.reverse) (by simpa using ht)

theorem stripHyphen_last (s : List Char) (c : Char)
    (h : (stripHyphen s).getLast? = some c) : isHyphen c = false := by
  rw [stripHyphen, List.getLast?_reverse] at h
  cases hu : (s.dropWhile isHyphen).reverse.dropWhile isHyphen with
  | nil => rw [hu] at h; simp at h
  | cons u0 u =>
    rw [hu] at h
    simp only [List.head?_cons, Option.some.injEq] at h
    subst h
    exact dropWhile_head_false isHyphen _ _ _ hu

theorem head?_take {α : Type} (n : Nat) (l : List α) (hn : n ≠ 0) :
    (List.take n l).head? = l.head? := by
  cases l with
  | nil => simp
  | cons a l =>
    cases n with
    | zero => exact absurd rfl hn
    | succ n => simp [List.take_succ_cons]

theorem pyLowerChar_ne_hyphen (c : Char) (h : isHyphen c = false) : pyLowerChar c ≠ '-' := by
  rw [pyLowerChar]
  by_cases hu : (65 ≤ c.toNat && c.toNat ≤ 90) = true
  · rw [if_pos hu]
    intro heq
    have h45 := congrArg Char.toNat heq
    simp only [Bool.and_eq_true, decide_eq_true_eq] at hu
    rw [toNat_ofNat_small _ (by omega)] at h45
    have : ('-' : Char).toNat = 45 := rfl
    omega
  · rw [if_neg hu]
    rw [isHyphen] at h
    exact beq_eq_false_iff_ne.mp h

theorem pyLowerChar_class (c : Char) (h : isAlnumAscii c = true ∨ c = '-') :
    (pyLowerChar c).toNat = 45 ∨ (48 ≤ (pyLowerChar c).toNat ∧ (pyLowerChar c).toNat ≤ 57) ∨
      (97 ≤ (pyLowerChar c).toNat ∧ (pyLowerChar c).toNat ≤ 122) := by
  rw [pyLowerChar]
  by_cases hu : (65 ≤ c.toNat && c.toNat ≤ 90) = true
  · simp only [Bool.and_eq_true, decide_eq_true_eq] at hu
    rw [if_pos (by simp only [Bool.and_eq_true, decide_eq_true_eq]; omega)]
    rw [toNat_ofNat_small _ (by omega)]
    omega
  · rw [if_neg hu]
    simp only [Bool.and_eq_true, decide_eq_true_eq, not_and, not_le] at hu
    rcases h with h | rfl
    · simp only [isAlnumAscii, Bool.or_eq_true, Bool.and_eq_true, decide_eq_true_eq] at h
      omega
    · left; rfl

theorem slug_core_spec (s out : List Char)
    (hout : out = if (List.take 120 (pyLower (stripHyphen (sanitize s)))).isEmpty
      then sanfoundryChars else List.take 120 (pyLower (stripHyphen (sanitize s)))) :
    out ≠ [] ∧ out.length ≤ 120 ∧
    (∀ c ∈ out, c.toNat = 45 ∨ (48 ≤ c.toNat ∧ c.toNat ≤ 57) ∨
      (97 ≤ c.toNat ∧ c.toNat ≤ 122)) ∧
    out.head? ≠ some '-' ∧
    ((pyLower (stripHyphen (sanitize s))).length ≤ 120 → out.getLast? ≠ some '-') ∧
    (stripHyphen (sanitize s) = [] → out = sanfoundryChars) := by
  subst hout
  by_cases hemp : (List.take 120 (pyLower (stripHyphen (sanitize s)))).isEmpty = true
  · rw [if_pos hemp]
    exact ⟨by decide, by decide, by decide, by decide, fun _ => by decide, fun _ => rfl⟩
  · rw [if_neg hemp]
    have hne : List.take 120 (pyLower (stripHyphen (sanitize s))) ≠ [] := by
      intro h
      exact hemp (by simp [h])
    refine ⟨hne, List.length_take_le _ _, ?_, ?_, ?_, ?_⟩
    · intro c hc
      have hc2 : c ∈ pyLower (stripHyphen (sanitize s)) := List.mem_of_mem_take hc
      obtain ⟨c0, hc0, rfl⟩ := List.mem_map.mp hc2
      have hc1 := mem_stripHyphen hc0
      rw [sanitize] at hc1
      exact pyLowerChar_class c0 (sanitizeGo_chars s false c0 hc1)
    · rw [head?_take _ _ (by norm_num)]
      cases hm : stripHyphen (sanitize s) with
      | nil => simp [pyLower, hm]
      | cons m0 mrest =>
        rw [pyLower, List.map_cons]
        simp only [List.head?_cons, ne_eq, Option.some.injEq]
        exact pyLowerChar_ne_hyphen m0 (stripHyphen_head (sanitize s) m0 mrest hm)
    · intro hlen
      rw [List.take_of_length_le hlen, pyLower, List.getLast?_map]
      cases hl : (stripHyphen (sanitize s)).getLast? with
      | none => simp
      | some mlast =>
        simp only [Option.map_some', ne_eq, Option.some.injEq]
        exact pyLowerChar_ne_hyphen mlast (stripHyphen_last (sanitize s) mlast hl)
    · intro h0
      exact absurd (by rw [h0]; rfl) hne

end App

namespace App

/-- C9 (amended): for every parsed URL (urlparse components and unquote
abstracted as inputs), slug_from_url returns a non-empty string of at most
120 characters consisting only of lowercase ASCII letters, digits, and
hyphens, with no leading hyphen; a trailing hyphen can occur only when the
sanitized slug exceeds 120 characters and is truncated; and when the
sanitized name is empty the fallback sanfoundry is returned. -/
theorem slug_from_url_spec (unquote : List Char → List Char)
    (fragment path netloc : List Char) :
    slug_from_url unquote fragment path netloc ≠ [] ∧
    (slug_from_url unquote fragment path netloc).length ≤ 120 ∧
    (∀ c ∈ slug_from_url unquote fragment path netloc,
      c.toNat = 45 ∨ (48 ≤ c.toNat ∧ c.toNat ≤ 57) ∨ (97 ≤ c.toNat ∧ c.toNat ≤ 122)) ∧
    (slug_from_url unquote fragment path netloc).head? ≠ some '-' ∧
    ((pyLower (stripHyphen (sanitize (stripExt (unquote
        (rawName fragment path netloc)))))).length ≤ 120 →
      (slug_from_url unquote fragment path netloc).getLast? ≠ some '-') ∧
    (stripHyphen (sanitize (stripExt (unquote (rawName fragment path netloc)))) = [] →
      slug_from_url unquote fragment path netloc = sanfoundryChars) :=
  slug_core_spec (stripExt (unquote (rawName fragment path netloc)))
    (slug_from_url unquote fragment path netloc) rfl

/-- C9 counterexample: the URL path of 119 letters a, a hyphen and bbb
sanitizes to 123 characters, and truncation to 120 leaves a trailing
hyphen, contradicting the claim that the result never ends in a hyphen. -/
theorem slug_from_url_counterexample :
    (slug_from_url (fun s => s) []
      ('/' :: (List.replicate 119 'a' ++ ['-', 'b', 'b', 'b'])) []).getLast? =
      some '-' := by decide

/-- C9 witness: the amended properties at the concrete path abc. -/
theorem slug_from_url_spec_witness :
    slug_from_url (fun s => s) [] ['/', 'a', 'b', 'c'] [] ≠ [] ∧
    (slug_from_url (fun s => s) [] ['/', 'a', 'b', 'c'] []).getLast? ≠ some '-' :=
  ⟨(slug_from_url_spec (fun s => s) [] ['/', 'a', 'b', 'c'] []).1,
    (slug_from_url_spec (fun s => s) [] ['/', 'a', 'b', 'c'] []).2.2.2.2.1 (by decide)⟩

theorem splitChoicesAux_pairs (flag : Bool) (s : List Char) :
    ∀ kv ∈ (splitChoicesAux flag s).2,
      (∃ c, isLowerAZ c = true ∧ kv.1 = [c, ')']) ∧
      ∃ pre suf, s = pre ++ kv.1 ++ suf ∧
        ((pre = [] ∧ flag = true) ∨ pre.getLast? = some '\n') := by
  induction flag, s using splitChoicesAux.induct with
  | case1 flag => intro kv hkv; simp [splitChoicesAux] at hkv
  | case2 flag c => intro kv hkv; simp [splitChoicesAux] at hkv
  | case3 atStart c c2 cs2 hcond ih =>
    intro kv hkv
    rw [splitChoicesAux, if_pos hcond] at hkv
    simp only [Bool.and_eq_true, beq_iff_eq] at hcond
    obtain ⟨⟨hstart, hlower⟩, rfl⟩ := hcond
    rcases List.mem_cons.mp hkv with rfl | hkv
    · exact ⟨⟨c, hlower, rfl⟩, [], cs2, rfl, Or.inl ⟨rfl, hstart⟩⟩
    · obtain ⟨hkey, pre, suf, hsplit, hdisj⟩ := ih kv hkv
      rcases hdisj with ⟨rfl, hf⟩ | hlast
      · exact absurd hf (by simp)
      · refine ⟨hkey, c :: ')' :: pre, suf, by simp [hsplit], Or.inr ?_⟩
        have hpre : pre ≠ [] := by
          intro h
          rw [h] at hlast
          simp at hlast
        rw [show c :: ')' :: pre = [c, ')'] ++ pre from rfl,
          List.getLast?_append_of_ne_nil [c, ')'] hpre]
        exact hlast
  | case4 atStart c c2 cs2 hcond ih =>
    intro kv hkv
    rw [splitChoicesAux, if_neg hcond] at hkv
    obtain ⟨hkey, pre, suf, hsplit, hdisj⟩ := ih kv hkv
    refine ⟨hkey, c :: pre, suf, by rw [List.cons_append, List.cons_append, ← hsplit], ?_⟩
    rcases hdisj with ⟨rfl, hnl⟩ | hlast
    · right
      rw [beq_iff_eq] at hnl
      simp [hnl]
    · right
      have hpre : pre ≠ [] := by
        intro h
        rw [h] at hlast
        simp at hlast
      rw [show c :: pre = [c] ++ pre from rfl,
        List.getLast?_append_of_ne_nil [c] hpre]
      exact hlast

theorem splitChoicesAux_no_marker (flag : Bool) (s : List Char)
    (h : hasMarker flag s = false) : (splitChoicesAux flag s).2 = [] := by
  induction flag, s using splitChoicesAux.induct with
  | case1 flag => rfl
  | case2 flag c => rfl
  | case3 atStart c c2 cs2 hcond ih =>
    rw [hasMarker, hcond] at h
    simp at h
  | case4 atStart c c2 cs2 hcond ih =>
    rw [hasMarker, Bool.or_eq_false_iff] at h
    rw [splitChoicesAux, if_neg hcond]
    exact ih h.2

theorem dictInsert_mem (d : List (List Char × List Char)) (k v : List Char)
    (kv : List Char × List Char) (h : kv ∈ dictInsert d k v) :
    kv ∈ d ∨ kv = (k, v) := by
  induction d with
  | nil =>
    rw [dictInsert] at h
    rcases List.mem_cons.mp h with rfl | h
    · exact Or.inr rfl
    · simp at h
  | cons kv0 d ih =>
    obtain ⟨k', v'⟩ := kv0
    rw [dictInsert] at h
    by_cases hk : (k' == k) = true
    · rw [if_pos hk] at h
      rcases List.mem_cons.mp h with rfl | h
      · right
        rw [beq_iff_eq] at hk
        rw [hk]
      · exact Or.inl (List.mem_cons_of_mem _ h)
    · rw [if_neg hk] at h
      rcases List.mem_cons.mp h with rfl | h
      · exact Or.inl (List.mem_cons_self _ _)
      · rcases ih h with h2 | h2
        · exact Or.inl (List.mem_cons_of_mem _ h2)
        · exact Or.inr h2

theorem buildDict_mem (pairs : List (List Char × List Char))
    (acc : List (List Char × List Char)) (kv : List Char × List Char)
    (h : kv ∈ buildDict acc pairs) :
    kv ∈ acc ∨ ∃ pr ∈ pairs, kv.1 = pyStrip pr.1 ∧ kv.2 = pyStrip pr.2 ++ ['\n'] := by
  induction pairs generalizing acc with
  | nil => exact Or.inl h
  | cons pr0 pairs ih =>
    obtain ⟨sep, part⟩ := pr0
    rw [buildDict] at h
    rcases ih _ h with h2 | ⟨pr, hpr, hk, hv⟩
    · rcases dictInsert_mem _ _ _ _ h2 with h3 | rfl
      · exact Or.inl h3
      · exact Or.inr ⟨(sep, part), List.mem_cons_self _ _, rfl, rfl⟩
    · exact Or.inr ⟨pr, List.mem_cons_of_mem _ hpr, hk, hv⟩

theorem pyStrip_marker (c : Char) (hc : isLowerAZ c = true) :
    pyStrip [c, ')'] = [c, ')'] := by
  have h1 : isPySpace c = false := by
    simp only [isLowerAZ, Bool.and_eq_true, decide_eq_true_eq] at hc
    simp only [isPySpace, Bool.or_eq_false_iff, beq_eq_false_iff_ne, ne_eq]
    omega
  have h2 : isPySpace ')' = false := rfl
  simp [pyStrip, List.dropWhile_cons, h1, h2]

end App

namespace App

/-- C10: every key of format_choices is a lowercase letter followed by a
closing parenthesis, taken from the start of a line of the preprocessed
input (None treated as the empty string); every value ends with a newline;
and an input with no choice markers yields the empty dictionary. -/
theorem format_choices_spec (text : Option (List Char)) :
    (∀ kv ∈ format_choices text,
      (∃ c, isLowerAZ c = true ∧ kv.1 = [c, ')'] ∧
        ∃ pre suf, pyText text = pre ++ kv.1 ++ suf ∧
          (pre = [] ∨ pre.getLast? = some '\n')) ∧
      kv.2.getLast? = some '\n') ∧
    (hasMarker true (pyText text) = false → format_choices text = []) := by
  constructor
  · intro kv hkv
    rw [format_choices] at hkv
    rcases buildDict_mem _ _ _ hkv with h | ⟨pr, hpr, hk, hv⟩
    · simp at h
    · obtain ⟨⟨c, hc, hkey⟩, pre, suf, hsplit, hdisj⟩ :=
        splitChoicesAux_pairs true (pyText text) pr hpr
      constructor
      · refine ⟨c, hc, ?_, pre, suf, ?_, ?_⟩
        · rw [hk, hkey, pyStrip_marker c hc]
        · rw [hk, hkey, pyStrip_marker c hc, ← hkey]
          exact hsplit
        · rcases hdisj with ⟨rfl, -⟩ | hlast
          · exact Or.inl rfl
          · exact Or.inr hlast
      · rw [hv]
        exact List.getLast?_concat _
  · intro h
    rw [format_choices, splitChoicesAux_no_marker true _ h]
    rfl

/-- C10 witness: the input of one choice line gives the key of the letter
a with a parenthesis and a newline-terminated value; an input without
markers gives the empty dictionary. -/
theorem format_choices_spec_witness :
    ((∃ c, isLowerAZ c = true ∧ (['a', ')'] : List Char) = [c, ')'] ∧
        ∃ pre suf, pyText (some ['a', ')', ' ', 'x']) = pre ++ ['a', ')'] ++ suf ∧
          (pre = [] ∨ pre.getLast? = some '\n')) ∧
      (['x', '\n'] : List Char).getLast? = some '\n') ∧
    format_choices (some ['q']) = [] := by
  constructor
  · exact (format_choices_spec (some ['a', ')', ' ', 'x'])).1
      (['a', ')'], ['x', '\n']) (by decide)
  · exact (format_choices_spec (some ['q'])).2 (by decide)

end App
